import Mathlib

/-!
Verification of the KMS-Google-ADK retrieval-and-orchestration engine.

Shallow embedding of the Python sources:
- `orchestration/message_bus.py` (priority queues and the dispatcher loop),
- `orchestration/workflow_engine.py` (DAG executor, ready-step computation,
  completion check, progress),
- `agents/ingestion_agent.py` (chunker, tag normalization, incremental gate),
- `app/index_store.py` (files-table DDL, candidate SQL semantics),
- `agents/linking_agent.py` (semantic-link scoring, link persistence).

Python strings are modelled as `List Char` (or `List Nat` of code points where
case arithmetic is needed); floats as `ℚ`; SQL tables as lists of rows.
-/

namespace KMS

/-! ## Message bus (`orchestration/message_bus.py`) -/

/-- `MessagePriority` from `message_bus.py` lines 28-33.  The Python `Enum`
lists LOW = 1, NORMAL = 2, HIGH = 3, CRITICAL = 4 in this order. -/
inductive MessagePriority where
  | low
  | normal
  | high
  | critical
deriving DecidableEq

/-- Iteration order of `for priority in MessagePriority`: Python enums iterate
in definition order, i.e. LOW, NORMAL, HIGH, CRITICAL. -/
def priorityIterOrder : List MessagePriority :=
  [.low, .normal, .high, .critical]

/-- The four per-priority FIFO queues of `MessageBus.queues`
(`deque` per priority; `append` at the tail, `popleft` at the head).
Messages are represented by their ids. -/
structure BusQueues where
  low : List String
  normal : List String
  high : List String
  critical : List String
deriving DecidableEq

def BusQueues.empty : BusQueues := ⟨[], [], [], []⟩

def BusQueues.get (q : BusQueues) : MessagePriority → List String
  | .low => q.low
  | .normal => q.normal
  | .high => q.high
  | .critical => q.critical

def BusQueues.set (q : BusQueues) : MessagePriority → List String → BusQueues
  | .low, l => { q with low := l }
  | .normal, l => { q with normal := l }
  | .high, l => { q with high := l }
  | .critical, l => { q with critical := l }

/-- `MessageBus.publish` (lines 135-190): the message is appended to
`self.queues[priority]`. -/
def publish (q : BusQueues) (p : MessagePriority) (m : String) : BusQueues :=
  q.set p (q.get p ++ [m])

def publishAll (ms : List (String × MessagePriority)) : BusQueues :=
  ms.foldl (fun q mp => publish q mp.2 mp.1) BusQueues.empty

/-- One pass of the `for priority in MessagePriority` loop in
`MessageBus._process_messages` (lines 313-328): for each priority in
definition order LOW, NORMAL, HIGH, CRITICAL, if the queue is non-empty the
head message is `popleft`-ed and handled. -/
def processPass (q : BusQueues) : BusQueues × List String :=
  priorityIterOrder.foldl
    (fun (st : BusQueues × List String) p =>
      match st.1.get p with
      | [] => st
      | m :: rest => (st.1.set p rest, st.2 ++ [m]))
    (q, [])

def BusQueues.size (q : BusQueues) : Nat :=
  q.low.length + q.normal.length + q.high.length + q.critical.length

/-- Repeated passes of `_process_messages`, collecting the dispatch order,
until the queues are drained (fuel-bounded). -/
def drain : Nat → BusQueues → List String
  | 0, _ => []
  | fuel + 1, q =>
    if q.size = 0 then []
    else
      let (q2, out) := processPass q
      out ++ drain fuel q2

/-- The order in which the dispatcher delivers a batch of messages that were
published (in list order) before processing starts. -/
def dispatchOrder (ms : List (String × MessagePriority)) : List String :=
  drain (publishAll ms).size (publishAll ms)

/-! ## Workflow engine (`orchestration/workflow_engine.py`) -/

/-- `StepStatus` (lines 27-33). -/
inductive StepStatus where
  | pending
  | running
  | completed
  | failed
  | skipped
deriving DecidableEq

/-- `WorkflowStatus` (lines 17-24). -/
inductive WorkflowStatus where
  | pending
  | running
  | completed
  | failed
  | cancelled
  | paused
deriving DecidableEq

/-- A `WorkflowStep` (lines 36-52), restricted to the fields the executor
reads: id, dependency list and status.  `outcome` records whether the
registered handler for this step would succeed (`_execute_step` sets the
status to `completed` on success and `failed` on exception or timeout). -/
structure WorkflowStep where
  id : Nat
  dependencies : List Nat
  status : StepStatus
  outcome : Bool
deriving DecidableEq

/-- Dependency check inside `WorkflowEngine._get_ready_steps` (lines 316-322):
every dependency id must resolve (via `next(...)`, i.e. the first step with
that id) to a step whose status is `completed`; a missing id blocks. -/
def depsMet (steps : List WorkflowStep) (s : WorkflowStep) : Bool :=
  s.dependencies.all fun depId =>
    match steps.find? (fun d => d.id == depId) with
    | some d => d.status == .completed
    | none => false

/-- `WorkflowEngine._get_ready_steps` (lines 308-327): the pending steps all
of whose dependencies are met. -/
def get_ready_steps (steps : List WorkflowStep) : List WorkflowStep :=
  steps.filter fun s => s.status == .pending && depsMet steps s

/-- `WorkflowEngine._is_workflow_complete` (lines 329-334): early-returning
loop checking that every step is `completed` or `skipped`. -/
def is_workflow_complete (steps : List WorkflowStep) : Bool :=
  match steps with
  | [] => true
  | s :: rest =>
    if s.status = .completed ∨ s.status = .skipped then is_workflow_complete rest
    else false

/-- Effect of one parallel batch in `_execute_workflow` (lines 274-282): every
ready step is run by `_execute_step`, which sets its status to `completed` on
handler success and `failed` on exception/timeout.  Non-ready steps are
untouched. -/
def runReadyBatch (steps : List WorkflowStep) : List WorkflowStep :=
  steps.map fun s =>
    if s.status == .pending && depsMet steps s then
      { s with status := if s.outcome then .completed else .failed }
    else s

/-- The `while ready_steps:` loop of `_execute_workflow` (lines 266-306),
fuel-bounded.  If the ready set is empty the loop exits and the workflow
status is left as it was (`RUNNING`); after each batch, if
`_is_workflow_complete` holds the status is set to `COMPLETED` and the loop
breaks. -/
def execLoop : Nat → List WorkflowStep → List WorkflowStep × WorkflowStatus
  | 0, steps => (steps, .running)
  | fuel + 1, steps =>
    if get_ready_steps steps = [] then (steps, .running)
    else
      let steps2 := runReadyBatch steps
      if is_workflow_complete steps2 then (steps2, .completed)
      else execLoop fuel steps2

/-- `_execute_workflow` on a workflow whose status was just set to `RUNNING`
by `start_workflow`: returns the final step list and workflow status. -/
def execute_workflow (steps : List WorkflowStep) : List WorkflowStep × WorkflowStatus :=
  execLoop (steps.length + 1) steps

/-- `WorkflowEngine._calculate_progress` (lines 733-739). -/
def calculate_progress (steps : List WorkflowStep) : ℚ :=
  if steps = [] then 0
  else ((steps.countP (fun s => s.status == .completed) : ℚ) / steps.length) * 100

end KMS

namespace KMS

/-! ## Helper lemmas on `countP` -/

/-- Number of steps still `pending`. -/
def pendingCount (steps : List WorkflowStep) : Nat :=
  steps.countP (fun s => s.status == .pending)

theorem countP_map_le {α : Type} (f : α → α) (p : α → Bool) (l : List α)
    (hle : ∀ x, p (f x) = true → p x = true) :
    (l.map f).countP p ≤ l.countP p := by
  rw [List.countP_map]
  induction l with
  | nil => simp
  | cons a t ih =>
    simp only [List.countP_cons, Function.comp_apply]
    by_cases h : p (f a) = true
    · rw [if_pos h, if_pos (hle a h)]
      omega
    · rw [if_neg h]
      split <;> omega

theorem countP_map_lt {α : Type} (f : α → α) (p : α → Bool) (l : List α)
    (hle : ∀ x, p (f x) = true → p x = true)
    (x : α) (hx : x ∈ l) (hpx : p x = true) (hfx : p (f x) = false) :
    (l.map f).countP p < l.countP p := by
  rw [List.countP_map]
  induction l with
  | nil => cases hx
  | cons a t ih =>
    simp only [List.countP_cons, Function.comp_apply]
    rcases List.mem_cons.1 hx with rfl | hxt
    · have hne : ¬ p (f x) = true := by simp [hfx]
      rw [if_neg hne, if_pos hpx]
      have := countP_map_le f p t hle
      rw [List.countP_map] at this
      omega
    · have ht := ih hxt
      by_cases h : p (f a) = true
      · rw [if_pos h, if_pos (hle a h)]
        omega
      · rw [if_neg h]
        split <;> omega

end KMS
namespace KMS

theorem mem_get_ready_steps {steps : List WorkflowStep} {s : WorkflowStep}
    (h : s ∈ get_ready_steps steps) :
    s ∈ steps ∧ s.status = .pending ∧ depsMet steps s = true := by
  have h2 := List.mem_filter.1 h
  have h3 := h2.2
  simp only [Bool.and_eq_true, beq_iff_eq] at h3
  exact ⟨h2.1, h3.1, h3.2⟩

theorem runReadyBatch_pending_lt {steps : List WorkflowStep}
    (h : get_ready_steps steps ≠ []) :
    pendingCount (runReadyBatch steps) < pendingCount steps := by
  obtain ⟨x, hx⟩ : ∃ x, x ∈ get_ready_steps steps := by
    cases hr : get_ready_steps steps with
    | nil => exact absurd hr h
    | cons a t => exact ⟨a, hr ▸ List.mem_cons_self a t⟩
  obtain ⟨hmem, hpend, hdeps⟩ := mem_get_ready_steps hx
  unfold pendingCount runReadyBatch
  refine countP_map_lt _ _ _ ?hle x hmem ?hpx ?hfx
  case hle =>
    intro y hy
    by_cases hc : (y.status == StepStatus.pending && depsMet steps y) = true
    · rw [if_pos hc] at hy
      split at hy <;> simp_all
    · rw [if_neg hc] at hy
      exact hy
  case hpx => simp [hpend]
  case hfx =>
    have hc : (x.status == StepStatus.pending && depsMet steps x) = true := by
      simp [hpend, hdeps]
    rw [if_pos hc]
    split <;> simp

theorem execLoop_status (fuel : Nat) (steps : List WorkflowStep) :
    (execLoop fuel steps).2 = .completed ∨ (execLoop fuel steps).2 = .running := by
  induction fuel generalizing steps with
  | zero => exact Or.inr rfl
  | succ n ih =>
    unfold execLoop
    by_cases h : get_ready_steps steps = []
    · rw [if_pos h]
      exact Or.inr rfl
    · rw [if_neg h]
      by_cases hc : is_workflow_complete (runReadyBatch steps) = true
      · rw [if_pos hc]
        exact Or.inl rfl
      · rw [if_neg hc]
        exact ih (runReadyBatch steps)

theorem execLoop_completed_complete (fuel : Nat) (steps : List WorkflowStep)
    (h : (execLoop fuel steps).2 = .completed) :
    is_workflow_complete (execLoop fuel steps).1 = true := by
  induction fuel generalizing steps with
  | zero => cases h
  | succ n ih =>
    unfold execLoop at h ⊢
    by_cases hr : get_ready_steps steps = []
    · rw [if_pos hr] at h
      cases h
    · rw [if_neg hr] at h ⊢
      by_cases hc : is_workflow_complete (runReadyBatch steps) = true
      · rw [if_pos hc]
        exact hc
      · rw [if_neg hc] at h ⊢
        exact ih (runReadyBatch steps) h

theorem execLoop_running_cases (fuel : Nat) (steps : List WorkflowStep)
    (hn : pendingCount steps < fuel)
    (hr : (execLoop fuel steps).2 = .running) :
    ((execLoop fuel steps).1 = steps ∧ get_ready_steps steps = []) ∨
      is_workflow_complete (execLoop fuel steps).1 = false := by
  induction fuel generalizing steps with
  | zero => omega
  | succ n ih =>
    unfold execLoop at hr ⊢
    by_cases hready : get_ready_steps steps = []
    · rw [if_pos hready]
      exact Or.inl ⟨rfl, hready⟩
    · rw [if_neg hready] at hr ⊢
      by_cases hc : is_workflow_complete (runReadyBatch steps) = true
      · rw [if_pos hc] at hr
        cases hr
      · rw [if_neg hc] at hr ⊢
        have hlt := runReadyBatch_pending_lt hready
        have hcases := ih (runReadyBatch steps) (by omega) hr
        rcases hcases with ⟨heq, _⟩ | hnc
        · right
          rw [heq]
          exact Bool.not_eq_true _ |>.mp hc
        · exact Or.inr hnc

end KMS

namespace KMS

theorem is_workflow_complete_iff (steps : List WorkflowStep) :
    is_workflow_complete steps = true ↔
      ∀ s ∈ steps, s.status = .completed ∨ s.status = .skipped := by
  induction steps with
  | nil => simp [is_workflow_complete]
  | cons a t ih =>
    unfold is_workflow_complete
    by_cases h : a.status = .completed ∨ a.status = .skipped
    · rw [if_pos h]
      simp [List.forall_mem_cons, h, ih]
    · rw [if_neg h]
      simp [List.forall_mem_cons, h]

theorem is_workflow_complete_cons_pending (s : WorkflowStep) (rest : List WorkflowStep)
    (h : s.status = .pending) : is_workflow_complete (s :: rest) = false := by
  unfold is_workflow_complete
  rw [if_neg]
  simp [h]

end KMS

namespace KMS

/-- C1: `MessageBus._process_messages` iterates `for priority in
MessagePriority`, which is the enum's definition order LOW, NORMAL, HIGH,
CRITICAL, so the dispatcher pops the LOW queue first.  Messages published in
the order critical, low, high, normal are delivered in the order low, normal,
high, critical — the exact inverse of the order the specification claims
(critical, high, normal, low).  Within a single priority level delivery is in
publish order. -/
theorem bus_dispatch_order_is_low_first :
    dispatchOrder
        [("critical", .critical), ("low", .low), ("high", .high), ("normal", .normal)]
      = ["low", "normal", "high", "critical"] ∧
    dispatchOrder [("first-normal", .normal), ("second-normal", .normal)]
      = ["first-normal", "second-normal"] ∧
    (["low", "normal", "high", "critical"] : List String)
      ≠ ["critical", "high", "normal", "low"] := by
  decide

/-- C2 (counterexample to the claim as stated): a one-step workflow whose
handler fails leaves `_execute_workflow` with the step `failed`, with no
further progress possible, yet the workflow status is never set to `FAILED`:
the `while ready_steps` loop simply exits and the status stays `RUNNING`. -/
theorem execute_workflow_stall_not_failed :
    execute_workflow [⟨0, [], .pending, false⟩]
        = ([⟨0, [], .failed, false⟩], .running) ∧
    (WorkflowStatus.running ≠ .failed) := by
  decide

/-- C2 (amended): on a workflow whose steps all start `pending`, the
execution loop never marks the workflow `failed`; it ends `completed` exactly
when the step list is non-empty and the final state passes
`_is_workflow_complete` (every step completed or skipped); in every other
case — a stall, a failed step, or an empty step list — the loop exits with
the status left at `running`. -/
theorem execute_workflow_amended (steps : List WorkflowStep)
    (hp : ∀ s ∈ steps, s.status = .pending) :
    (execute_workflow steps).2 ≠ .failed ∧
    ((execute_workflow steps).2 = .completed ∨ (execute_workflow steps).2 = .running) ∧
    ((execute_workflow steps).2 = .completed ↔
      steps ≠ [] ∧ is_workflow_complete (execute_workflow steps).1 = true) := by
  unfold execute_workflow
  have hst := execLoop_status (steps.length + 1) steps
  refine ⟨?_, hst, ?_, ?_⟩
  · intro hf
    rcases hst with h | h
    · rw [hf] at h
      cases h
    · rw [hf] at h
      cases h
  · intro hcomp
    constructor
    · intro hnil
      subst hnil
      simp [execLoop, get_ready_steps, List.filter] at hcomp
    · exact execLoop_completed_complete _ _ hcomp
  · rintro ⟨hne, hcomp⟩
    rcases hst with h | h
    · exact h
    · exfalso
      have hn : pendingCount steps < steps.length + 1 :=
        Nat.lt_succ_of_le (List.countP_le_length _)
      rcases execLoop_running_cases _ _ hn h with ⟨heq, _⟩ | hnc
      · rw [heq] at hcomp
        cases steps with
        | nil => exact hne rfl
        | cons a t =>
          have ha : a.status = .pending := hp a (List.mem_cons_self a t)
          rw [is_workflow_complete_cons_pending a t ha] at hcomp
          cases hcomp
      · rw [hnc] at hcomp
        cases hcomp

/-- Witness for `execute_workflow_amended`: a concrete one-step workflow with
a succeeding handler, whose hypothesis (all steps pending) holds by
computation. -/
theorem execute_workflow_amended_witness :
    (∀ s ∈ [(⟨0, [], .pending, true⟩ : WorkflowStep)], s.status = .pending) ∧
    ((execute_workflow [⟨0, [], .pending, true⟩]).2 ≠ .failed ∧
     ((execute_workflow [⟨0, [], .pending, true⟩]).2 = .completed ∨
      (execute_workflow [⟨0, [], .pending, true⟩]).2 = .running) ∧
     ((execute_workflow [⟨0, [], .pending, true⟩]).2 = .completed ↔
       ([(⟨0, [], .pending, true⟩ : WorkflowStep)] ≠ [] ∧
        is_workflow_complete (execute_workflow [⟨0, [], .pending, true⟩]).1 = true))) :=
  ⟨by decide, execute_workflow_amended _ (by decide)⟩

/-- C9: `_get_ready_steps` only returns pending steps whose dependencies all
resolve to a `completed` step, and `_is_workflow_complete` is true iff every
step is `completed` or `skipped`. -/
theorem ready_steps_sound_and_complete_iff (steps : List WorkflowStep) :
    (∀ s ∈ get_ready_steps steps,
      s.status = .pending ∧
        ∀ depId ∈ s.dependencies,
          ∃ d ∈ steps, d.id = depId ∧ d.status = .completed) ∧
    (is_workflow_complete steps = true ↔
      ∀ s ∈ steps, s.status = .completed ∨ s.status = .skipped) := by
  constructor
  · intro s hs
    obtain ⟨hmem, hpend, hdeps⟩ := mem_get_ready_steps hs
    refine ⟨hpend, ?_⟩
    intro depId hdep
    unfold depsMet at hdeps
    rw [List.all_eq_true] at hdeps
    have hd := hdeps depId hdep
    cases hfind : steps.find? (fun d => d.id == depId) with
    | none =>
      rw [hfind] at hd
      cases hd
    | some d =>
      rw [hfind] at hd
      refine ⟨d, List.mem_of_find?_eq_some hfind, ?_, beq_iff_eq.1 hd⟩
      have := List.find?_some hfind
      exact beq_iff_eq.1 this
  · exact is_workflow_complete_iff steps

/-- Witness for `ready_steps_sound_and_complete_iff`: a concrete two-step
workflow where the second step's dependency on the first (completed) step
makes it ready, so the soundness statement is not vacuous. -/
theorem ready_steps_sound_witness :
    get_ready_steps [⟨0, [], .completed, true⟩, ⟨1, [0], .pending, true⟩] ≠ [] ∧
    ((∀ s ∈ get_ready_steps [⟨0, [], .completed, true⟩, ⟨1, [0], .pending, true⟩],
      s.status = .pending ∧
        ∀ depId ∈ s.dependencies,
          ∃ d ∈ [(⟨0, [], .completed, true⟩ : WorkflowStep), ⟨1, [0], .pending, true⟩],
            d.id = depId ∧ d.status = .completed) ∧
     (is_workflow_complete [⟨0, [], .completed, true⟩, ⟨1, [0], .pending, true⟩] = true ↔
      ∀ s ∈ [(⟨0, [], .completed, true⟩ : WorkflowStep), ⟨1, [0], .pending, true⟩],
        s.status = .completed ∨ s.status = .skipped)) :=
  ⟨by decide, ready_steps_sound_and_complete_iff _⟩

/-- The progress formula as the specification states it:
`(completed steps / total steps) × 100`, total because division by zero is 0
in `ℚ`. -/
def progress_formula (steps : List WorkflowStep) : ℚ :=
  ((steps.countP (fun s => s.status == .completed) : ℚ) / steps.length) * 100

/-- C10: `_calculate_progress` equals `(completed / total) × 100` and is total
on an empty step list, returning 0 (the code guards `if not workflow.steps`)
instead of dividing by zero. -/
theorem calculate_progress_eq (steps : List WorkflowStep) :
    calculate_progress steps = progress_formula steps ∧
    calculate_progress [] = 0 := by
  constructor
  · unfold calculate_progress progress_formula
    by_cases h : steps = []
    · subst h
      simp
    · rw [if_neg h]
  · rfl

end KMS

namespace KMS

/-! ## Ingestion: the incremental gate (`agents/ingestion_agent.py` 202-219)
    against the files DDL (`app/index_store.py` 113-118) -/

/-- Columns of the `files` table created by `index_store.migrate()`
(DDL lines 113-118): `path, etag, size, updated`.  The DDL declares no
`hash` column. -/
def filesTableColumns : List String :=
  ["path", "etag", "size", "updated"]

/-- A row of the files table: column/value pairs. -/
abbrev FilesRow := List (String × String)

/-- SQL evaluation of `SELECT <col> FROM files WHERE path = ?`: referencing a
column that is not in the table's schema fails the statement
(`no such column`); otherwise the value of that column in the matching row is
returned. -/
def selectFilesColumn (cols : List String) (rows : List FilesRow)
    (col : String) (p : String) : Except String (Option String) :=
  if col ∈ cols then
    match rows.find? (fun r => r.lookup "path" == some p) with
    | none => .ok none
    | some r => .ok (r.lookup col)
  else .error ("no such column: " ++ col)

/-- Shape of the result dict of `IngestionAgent.process_document`. -/
structure IngestResult where
  success : Bool
  skipped : Bool
  reason : Option String
  error : Option String
deriving DecidableEq

/-- The incremental gate of `IngestionAgent.process_document` (lines
202-219): unless `force_update`, run `SELECT hash FROM files WHERE path = ?`;
if it returns the document's hash, short-circuit with
`{success: True, skipped: True, reason: "Document unchanged"}`.  A raised
database error is caught by the broad `except` (lines 294-300) and turned
into `{success: False, error: str(e)}`.  `rest` is whatever the remainder of
the pipeline would return when the gate does not short-circuit. -/
def process_document_gate (force_update : Bool)
    (selectHash : Except String (Option String)) (docHash : String)
    (rest : IngestResult) : IngestResult :=
  if force_update then rest
  else
    match selectHash with
    | .error e => { success := false, skipped := false, reason := none, error := some e }
    | .ok r =>
      if r = some docHash then
        { success := true, skipped := true, reason := some "Document unchanged", error := none }
      else rest

/-- The `SELECT hash FROM files WHERE path = ?` of line 207-210 run against
the schema that `_init_database` (which calls `index_store.migrate()`)
actually creates. -/
def migrate_files_select_hash (rows : List FilesRow) (p : String) :
    Except String (Option String) :=
  selectFilesColumn filesTableColumns rows "hash" p

/-- A files row for an already-ingested document, populated with exactly the
columns the DDL declares. -/
def exFilesRow : FilesRow :=
  [("path", "gs://bucket/notes/a.md"), ("etag", "e1"), ("size", "12"),
   ("updated", "2024-01-01T00:00:00Z")]

/-- Stand-in for the result of the rest of the pipeline. -/
def exRest : IngestResult :=
  { success := true, skipped := false, reason := none, error := none }

/-- C3: the claim fails on the code.  The files table created by
`index_store.migrate()` has columns `path, etag, size, updated` and no
`hash`, so the agent's `SELECT hash FROM files` raises and the second
ingestion of an unchanged document returns `success=False` with a database
error — not `skipped=true`.  Moreover, even the agent's own skip branch
returns reason `"Document unchanged"`, not `"unchanged"`. -/
theorem ingest_unchanged_gate_disagrees :
    "hash" ∉ filesTableColumns ∧
    process_document_gate false
        (migrate_files_select_hash [exFilesRow] "gs://bucket/notes/a.md") "h1" exRest
      = { success := false, skipped := false, reason := none,
          error := some "no such column: hash" } ∧
    process_document_gate false (.ok (some "h1")) "h1" exRest
      = { success := true, skipped := true, reason := some "Document unchanged",
          error := none } ∧
    (some "Document unchanged" : Option String) ≠ some "unchanged" := by
  decide

end KMS

namespace KMS

/-! ## Chunker (`agents/ingestion_agent.py`, `split_into_chunks`, lines
    79-146).  Python strings are `List Char`; `splitlines`/`strip` etc. are
    modelled for newline-`\n` text. -/

/-- Python whitespace (ASCII) as used by `str.strip` / `str.lstrip`. -/
def pyIsSpace (c : Char) : Bool :=
  c == ' ' || c == '\t' || c == '\n' || c == '\r' || c == '\x0b' || c == '\x0c'

/-- Python `str.strip()`. -/
def pyStrip (l : List Char) : List Char :=
  ((l.dropWhile pyIsSpace).reverse.dropWhile pyIsSpace).reverse

/-- Python `str.splitlines()` for `\n`-separated text: no trailing empty
line, empty string gives `[]`. -/
def splitlinesGo : List Char → List Char → List (List Char)
  | [], acc => [acc]
  | '\n' :: rest, acc => if rest = [] then [acc] else acc :: splitlinesGo rest []
  | c :: rest, acc => splitlinesGo rest (acc ++ [c])

def pySplitlines (l : List Char) : List (List Char) :=
  if l = [] then [] else splitlinesGo l []

/-- Python `body.split("\n\n")`: leftmost, non-overlapping. -/
def splitParas : List Char → List Char → List (List Char)
  | [], acc => [acc]
  | '\n' :: '\n' :: rest, acc => acc :: splitParas rest []
  | c :: rest, acc => splitParas rest (acc ++ [c])

/-- `line.lstrip().startswith("#")` (line 137). -/
def isHeadingLine (ln : List Char) : Bool :=
  match ln.dropWhile pyIsSpace with
  | '#' :: _ => true
  | _ => false

/-- `line.lstrip("# ").strip() or None` (line 140). -/
def headingOf (ln : List Char) : Option (List Char) :=
  let t := pyStrip (ln.dropWhile (fun c => c == '#' || c == ' '))
  if t = [] then none else some t

/-- Decimal digits of a natural number (for the f-string id). -/
def natReprAux : Nat → Nat → List Char
  | 0, _ => []
  | fuel + 1, n =>
    if n < 10 then [Char.ofNat (48 + n)]
    else natReprAux fuel (n / 10) ++ [Char.ofNat (48 + n % 10)]

def natRepr (n : Nat) : List Char :=
  natReprAux (n + 1) n

/-- The chunk id of line 114/125: `f"{document_path}_chunk_{chunk_counter}"`.
It is built from the path and the running emission counter. -/
def chunkIdOf (path : List Char) (k : Nat) : List Char :=
  path ++ ("_chunk_".data) ++ natRepr k

/-- `DocumentChunk` (lines 19-27). -/
structure PyChunk where
  heading : Option (List Char)
  start_line : Nat
  text : List Char
  chunk_id : List Char
  document_path : List Char
deriving DecidableEq

/-- Accumulated chunks plus the `chunk_counter` closed over by
`emit_chunk`. -/
structure EmitState where
  chunks : List PyChunk
  counter : Nat
deriving DecidableEq

/-- The paragraph loop inside `emit_chunk` (lines 109-123): each paragraph
becomes its own chunk; `offset` advances by the paragraph's line count. -/
def emitParas (path : List Char) (heading : Option (List Char)) (s : Nat) :
    List (List Char) → Nat → EmitState → EmitState
  | [], _, st => st
  | p :: rest, offset, st =>
    emitParas path heading s rest (offset + p.countP (· == '\n') + 1)
      ⟨st.chunks ++ [⟨heading, s + offset + 1, p, chunkIdOf path st.counter, path⟩],
       st.counter + 1⟩

/-- Body of `emit_chunk` once `body = "\n".join(lines[s:e]).strip()` has been
computed: skip if empty; if longer than `chunk_size` (1200) split into
paragraphs, otherwise emit a single chunk with `start_line = s + 1`. -/
def emit_chunk_body (path : List Char) (st : EmitState) (s : Nat)
    (heading : Option (List Char)) (body : List Char) : EmitState :=
  if body = [] then st
  else if body.length > 1200 then
    emitParas path heading s
      ((splitParas body []).filter (fun p => pyStrip p ≠ [])) 0 st
  else ⟨st.chunks ++ [⟨heading, s + 1, body, chunkIdOf path st.counter, path⟩],
        st.counter + 1⟩

/-- `emit_chunk(s, e, heading)` (lines 102-133). -/
def emit_chunk (path : List Char) (lines : List (List Char)) (st : EmitState)
    (s e : Nat) (heading : Option (List Char)) : EmitState :=
  emit_chunk_body path st s heading
    (pyStrip (List.intercalate ['\n'] ((lines.drop s).take (e - s))))

/-- The `for i, line in enumerate(lines)` loop of lines 136-144 plus the
final `emit_chunk(start, len(lines), current_heading)`. -/
def chunkLoop (path : List Char) (lines : List (List Char)) :
    List (Nat × List Char) → Nat → Option (List Char) → EmitState → EmitState
  | [], start, heading, st => emit_chunk path lines st start lines.length heading
  | (i, ln) :: rest, start, heading, st =>
    if isHeadingLine ln then
      chunkLoop path lines rest (i + 1) (headingOf ln)
        (if start < i then emit_chunk path lines st start i heading else st)
    else chunkLoop path lines rest start heading st

/-- `IngestionAgent.split_into_chunks` (lines 79-146). -/
def split_into_chunks (path text : List Char) : List PyChunk :=
  let lines := pySplitlines text
  (chunkLoop path lines lines.enum 0 none ⟨[], 0⟩).chunks

end KMS

namespace KMS

/-- Invariant: the chunk ids accumulated so far are exactly
`path_chunk_0 … path_chunk_(counter-1)` in order. -/
def IdsOk (path : List Char) (st : EmitState) : Prop :=
  st.chunks.map (fun c => c.chunk_id) = (List.range st.counter).map (chunkIdOf path)

theorem idsOk_append {path : List Char} {st : EmitState} (h : IdsOk path st)
    (c : PyChunk) (hc : c.chunk_id = chunkIdOf path st.counter) :
    IdsOk path ⟨st.chunks ++ [c], st.counter + 1⟩ := by
  unfold IdsOk at h ⊢
  simp only [List.map_append, List.map_cons, List.map_nil, h, hc, List.range_succ]

theorem emitParas_idsOk (path : List Char) (heading : Option (List Char)) (s : Nat)
    (ps : List (List Char)) (offset : Nat) (st : EmitState) (h : IdsOk path st) :
    IdsOk path (emitParas path heading s ps offset st) := by
  induction ps generalizing offset st with
  | nil => exact h
  | cons p rest ih =>
    exact ih _ _ (idsOk_append h _ rfl)

theorem emit_chunk_body_idsOk (path : List Char) (st : EmitState) (s : Nat)
    (heading : Option (List Char)) (body : List Char) (h : IdsOk path st) :
    IdsOk path (emit_chunk_body path st s heading body) := by
  unfold emit_chunk_body
  split
  · exact h
  · split
    · exact emitParas_idsOk _ _ _ _ _ _ h
    · exact idsOk_append h _ rfl

theorem emit_chunk_idsOk (path : List Char) (lines : List (List Char))
    (st : EmitState) (s e : Nat) (heading : Option (List Char)) (h : IdsOk path st) :
    IdsOk path (emit_chunk path lines st s e heading) :=
  emit_chunk_body_idsOk _ _ _ _ _ h

theorem chunkLoop_idsOk (path : List Char) (lines : List (List Char))
    (pairs : List (Nat × List Char)) (start : Nat) (heading : Option (List Char))
    (st : EmitState) (h : IdsOk path st) :
    IdsOk path (chunkLoop path lines pairs start heading st) := by
  induction pairs generalizing start heading st with
  | nil => exact emit_chunk_idsOk _ _ _ _ _ _ h
  | cons p rest ih =>
    unfold chunkLoop
    by_cases hh : isHeadingLine p.2 = true
    · rw [if_pos hh]
      by_cases hs : start < p.1
      · rw [if_pos hs]
        exact ih _ _ _ (emit_chunk_idsOk _ _ _ _ _ _ h)
      · rw [if_neg hs]
        exact ih _ _ _ h
    · rw [if_neg hh]
      exact ih _ _ _ h

/-- C4 (counterexample to the claim as stated): two documents at the same
path in which the chunk `(start_line 3, text "b")` is identical, yet its
chunk id differs (`doc.md_chunk_1` vs `doc.md_chunk_0`) because the id is the
running emission counter, not a hash of `(path, start_line, text)`: the id
depends on the chunk's position among the other chunks of the document. -/
theorem chunk_id_not_function_of_triple :
    (split_into_chunks "doc.md".data "x\n# H\nb".data).map
        (fun c => (c.heading, c.start_line, c.text, c.chunk_id))
      = [(none, 1, "x".data, "doc.md_chunk_0".data),
         (some "H".data, 3, "b".data, "doc.md_chunk_1".data)] ∧
    (split_into_chunks "doc.md".data "\n# H\nb".data).map
        (fun c => (c.heading, c.start_line, c.text, c.chunk_id))
      = [(some "H".data, 3, "b".data, "doc.md_chunk_0".data)] ∧
    ("doc.md_chunk_1".data ≠ "doc.md_chunk_0".data) := by
  decide

/-- C4 (amended): every chunk emitted by `IngestionAgent.split_into_chunks`
carries the positional id `f"{path}_chunk_{k}"` where `k` is the chunk's
index in emission order; the ids of a document's chunks are exactly
`path_chunk_0 … path_chunk_(n-1)`.  (The SHA-1 of
`path:start_line:first_64_chars(text)` exists only in
`scripts/ingest.py::chunk_id_for`, which this pipeline does not use.) -/
theorem split_into_chunks_ids_positional (path text : List Char) :
    (split_into_chunks path text).map (fun c => c.chunk_id)
      = (List.range (split_into_chunks path text).length).map (chunkIdOf path) := by
  unfold split_into_chunks
  have h := chunkLoop_idsOk path (pySplitlines text) (pySplitlines text).enum 0 none
    ⟨[], 0⟩ (by unfold IdsOk; simp)
  unfold IdsOk at h
  have hlen :
      (chunkLoop path (pySplitlines text) (pySplitlines text).enum 0 none ⟨[], 0⟩).chunks.length
        = (chunkLoop path (pySplitlines text) (pySplitlines text).enum 0 none ⟨[], 0⟩).counter := by
    have := congrArg List.length h
    simpa using this
  rw [hlen]
  exact h

end KMS

namespace KMS

/-! ## Linking agent (`agents/linking_agent.py`) -/

/-- `LinkType` (lines 19-26). -/
inductive LinkType where
  | related
  | similar
  | references
  | contains
  | part_of
  | opposite
deriving DecidableEq

/-- `LinkingAgent._determine_link_type` (lines 173-191): thresholds on the
strength only (the metadata argument is unused). -/
def determine_link_type (strength : ℚ) : LinkType :=
  if strength ≥ 9/10 then .similar
  else if strength ≥ 8/10 then .related
  else if strength ≥ 6/10 then .references
  else .related

/-- `LinkingAgent._create_link_context` (lines 193-213). -/
def create_link_context (title heading : String) : String :=
  if title ≠ "" ∧ heading ≠ "" then
    "Links to '" ++ title ++ "' section '" ++ heading ++ "'"
  else if title ≠ "" then "Links to '" ++ title ++ "'"
  else if heading ≠ "" then "Links to section '" ++ heading ++ "'"
  else "Semantic link"

/-- A hit returned by `vector_search_tool.find_similar`: chunk id, cosine
score and the metadata fields `_create_link_context` reads. -/
structure SimilarDoc where
  note_id : String
  score : ℚ
  title : String
  heading : String
deriving DecidableEq

/-- `SemanticLink` (lines 29-38), restricted to the fields the claims
mention. -/
structure SemanticLink where
  source_id : String
  target_id : String
  link_type : LinkType
  strength : ℚ
  context : String
deriving DecidableEq

/-- Stable descending insertion for
`links.sort(key=lambda x: x.strength, reverse=True)` (line 166). -/
def insertByStrengthDesc (l : SemanticLink) : List SemanticLink → List SemanticLink
  | [] => [l]
  | x :: xs =>
    if x.strength ≤ l.strength then l :: x :: xs
    else x :: insertByStrengthDesc l xs

def sortByStrengthDesc (ls : List SemanticLink) : List SemanticLink :=
  ls.foldr insertByStrengthDesc []

/-- `LinkingAgent.find_semantic_links` (lines 102-171) applied to the hits
`similar_docs` returned by the vector search: self-hits are skipped, the
link strength is `min(doc.score, 1.0)` (line 141) — the cosine score alone —
the type comes from `_determine_link_type`, and the result is sorted by
strength descending and truncated to `max_links`. -/
def find_semantic_links (document_id : String) (similar_docs : List SimilarDoc)
    (max_links : Nat) : List SemanticLink :=
  let links := (similar_docs.filter (fun d => d.note_id ≠ document_id)).map fun d =>
    { source_id := document_id
      target_id := d.note_id
      link_type := determine_link_type (min d.score 1)
      strength := min d.score 1
      context := create_link_context d.title d.heading : SemanticLink }
  (sortByStrengthDesc links).take max_links

/-- A row of the `semantic_links` table (`_init_database`, lines 78-91). -/
structure LinkRow where
  source_id : String
  target_id : String
  link_type : LinkType
  strength : ℚ
  context : String
deriving DecidableEq

/-- The `UNIQUE(source_id, target_id, link_type)` key of a row. -/
def rowKey (r : LinkRow) : String × String × LinkType :=
  (r.source_id, r.target_id, r.link_type)

def linkKey (l : SemanticLink) : String × String × LinkType :=
  (l.source_id, l.target_id, l.link_type)

def linkKeyMatches (r : LinkRow) (l : SemanticLink) : Bool :=
  r.source_id == l.source_id && r.target_id == l.target_id && r.link_type == l.link_type

/-- The `UPDATE semantic_links SET strength, context, ... WHERE id = existing`
of lines 252-261: only the first matching row (the one `fetchone` returned)
is rewritten, and only its non-key columns. -/
def updateFirstMatch (l : SemanticLink) : List LinkRow → List LinkRow
  | [] => []
  | r :: rest =>
    if linkKeyMatches r l then
      { r with strength := l.strength, context := l.context } :: rest
    else r :: updateFirstMatch l rest

/-- One iteration of the `for link in links` loop of
`LinkingAgent.create_links` (lines 239-281), acting on
`(rows, created_count, updated_count)`: if a row with the link's
`(source, target, type)` exists it is updated only when the new strength is
strictly higher; otherwise a single new row `(source, target, type, ...)` is
inserted.  No row for the reverse direction is touched. -/
def create_links_step (acc : List LinkRow × Nat × Nat) (l : SemanticLink) :
    List LinkRow × Nat × Nat :=
  match acc.1.find? (fun r => linkKeyMatches r l) with
  | some r =>
    if l.strength > r.strength then (updateFirstMatch l acc.1, acc.2.1, acc.2.2 + 1)
    else acc
  | none =>
    (acc.1 ++ [⟨l.source_id, l.target_id, l.link_type, l.strength, l.context⟩],
     acc.2.1 + 1, acc.2.2)

/-- `LinkingAgent.create_links` (lines 215-300): returns the table rows and
the `(created, updated)` counts of the result dict. -/
def create_links (rows : List LinkRow) (links : List SemanticLink) :
    List LinkRow × Nat × Nat :=
  links.foldl create_links_step (rows, 0, 0)

end KMS

namespace KMS

theorem mem_insertByStrengthDesc {a l : SemanticLink} {xs : List SemanticLink}
    (h : a ∈ insertByStrengthDesc l xs) : a = l ∨ a ∈ xs := by
  induction xs with
  | nil =>
    simp [insertByStrengthDesc] at h
    exact Or.inl h
  | cons x rest ih =>
    unfold insertByStrengthDesc at h
    by_cases hc : x.strength ≤ l.strength
    · rw [if_pos hc] at h
      rcases List.mem_cons.1 h with rfl | h2
      · exact Or.inl rfl
      · exact Or.inr h2
    · rw [if_neg hc] at h
      rcases List.mem_cons.1 h with rfl | h2
      · exact Or.inr (List.mem_cons_self _ _)
      · rcases ih h2 with h3 | h3
        · exact Or.inl h3
        · exact Or.inr (List.mem_cons_of_mem _ h3)

theorem mem_sortByStrengthDesc {a : SemanticLink} {ls : List SemanticLink}
    (h : a ∈ sortByStrengthDesc ls) : a ∈ ls := by
  induction ls with
  | nil => exact absurd h (by simp [sortByStrengthDesc])
  | cons x rest ih =>
    unfold sortByStrengthDesc at h
    rcases mem_insertByStrengthDesc h with rfl | h2
    · exact List.mem_cons_self _ _
    · exact List.mem_cons_of_mem _ (ih h2)

/-- C6 (counterexample to the claim as stated): for a candidate pair with
cosine similarity 0.80, `find_semantic_links` sets the persisted strength to
`min(0.80, 1.0) = 0.80` — the cosine score alone — not the claimed
`0.6·0.80 + 0.4·0.70 = 0.76` hybrid of vector score and shared-entity
confidence; no entity term occurs in the computation at all.  The link type
is `RELATED` (0.8 ≥ 0.8). -/
theorem link_strength_not_hybrid :
    find_semantic_links "c1" [⟨"c2", 4/5, "T2", ""⟩] 10
      = [⟨"c1", "c2", .related, 4/5, "Links to 'T2'"⟩] ∧
    (6/10 : ℚ) * (4/5) + (4/10) * (7/10) = 19/25 ∧
    ((4/5 : ℚ) ≠ 19/25) := by
  refine ⟨?_, by norm_num, by norm_num⟩
  simp only [find_semantic_links, List.filter, List.map, sortByStrengthDesc,
    List.foldr, insertByStrengthDesc, List.take]
  norm_num [determine_link_type, create_link_context]
  decide

end KMS

namespace KMS

/-- C6 (amended): for every candidate target, the persisted link strength is
`min(cosine score, 1.0)` — the vector score alone, with no shared-entity
term — and the link type is `_determine_link_type` of that strength
(≥ 0.9 similar, ≥ 0.8 related, ≥ 0.6 references, otherwise related). -/
theorem find_semantic_links_vector_only (document_id : String)
    (docs : List SimilarDoc) (max_links : Nat) :
    ∀ l ∈ find_semantic_links document_id docs max_links,
      ∃ d ∈ docs, d.note_id ≠ document_id ∧
        l.source_id = document_id ∧ l.target_id = d.note_id ∧
        l.strength = min d.score 1 ∧
        l.link_type = determine_link_type (min d.score 1) := by
  intro l hl
  unfold find_semantic_links at hl
  have h1 := mem_sortByStrengthDesc (List.mem_of_mem_take hl)
  obtain ⟨d, hd, rfl⟩ := List.mem_map.1 h1
  have hd2 := List.mem_filter.1 hd
  refine ⟨d, hd2.1, ?_, rfl, rfl, rfl, rfl⟩
  simpa using hd2.2

/-- Witness for `find_semantic_links_vector_only` at a concrete hit with
cosine 0.8: the result list is non-empty, so the statement is not vacuous. -/
theorem find_semantic_links_vector_only_witness :
    find_semantic_links "c1" [⟨"c2", 4/5, "T2", ""⟩] 10 ≠ [] ∧
    (∀ l ∈ find_semantic_links "c1" [⟨"c2", 4/5, "T2", ""⟩] 10,
      ∃ d ∈ [(⟨"c2", 4/5, "T2", ""⟩ : SimilarDoc)], d.note_id ≠ "c1" ∧
        l.source_id = "c1" ∧ l.target_id = d.note_id ∧
        l.strength = min d.score 1 ∧
        l.link_type = determine_link_type (min d.score 1)) := by
  constructor
  · simp only [find_semantic_links, List.filter, List.map, sortByStrengthDesc,
      List.foldr, insertByStrengthDesc, List.take]
    norm_num
  · exact find_semantic_links_vector_only _ _ _

end KMS

namespace KMS

theorem updateFirstMatch_keys (l : SemanticLink) (rows : List LinkRow) :
    (updateFirstMatch l rows).map rowKey = rows.map rowKey := by
  induction rows with
  | nil => rfl
  | cons r rest ih =>
    unfold updateFirstMatch
    by_cases h : linkKeyMatches r l = true
    · rw [if_pos h]
      simp [rowKey]
    · rw [if_neg h]
      simp [ih]

theorem linkKeyMatches_eq {r : LinkRow} {l : SemanticLink}
    (h : linkKeyMatches r l = true) : rowKey r = linkKey l := by
  unfold linkKeyMatches at h
  simp only [Bool.and_eq_true, beq_iff_eq] at h
  unfold rowKey linkKey
  rw [h.1.1, h.1.2, h.2]

theorem create_links_step_provenance (acc : List LinkRow × Nat × Nat)
    (l : SemanticLink) (r : LinkRow) (hr : r ∈ (create_links_step acc l).1) :
    (∃ r0 ∈ acc.1, rowKey r = rowKey r0) ∨ rowKey r = linkKey l := by
  unfold create_links_step at hr
  split at hr
  · split at hr
    · have hk : rowKey r ∈ (updateFirstMatch l acc.1).map rowKey :=
        List.mem_map_of_mem rowKey hr
      rw [updateFirstMatch_keys] at hk
      obtain ⟨r0, hr0, hkey⟩ := List.mem_map.1 hk
      exact Or.inl ⟨r0, hr0, hkey.symm⟩
    · exact Or.inl ⟨r, hr, rfl⟩
  · rcases List.mem_append.1 hr with h1 | h1
    · exact Or.inl ⟨r, h1, rfl⟩
    · simp only [List.mem_singleton] at h1
      subst h1
      exact Or.inr rfl

theorem create_links_step_key_mono (acc : List LinkRow × Nat × Nat)
    (l : SemanticLink) (k : String × String × LinkType)
    (h : ∃ r ∈ acc.1, rowKey r = k) :
    ∃ r ∈ (create_links_step acc l).1, rowKey r = k := by
  obtain ⟨r0, hr0, hk⟩ := h
  unfold create_links_step
  split
  · split
    · have hk2 : k ∈ (updateFirstMatch l acc.1).map rowKey := by
        rw [updateFirstMatch_keys]
        exact hk ▸ List.mem_map_of_mem rowKey hr0
      obtain ⟨r2, hr2, hkey⟩ := List.mem_map.1 hk2
      exact ⟨r2, hr2, hkey⟩
    · exact ⟨r0, hr0, hk⟩
  · exact ⟨r0, List.mem_append_left _ hr0, hk⟩

theorem create_links_step_has_key (acc : List LinkRow × Nat × Nat)
    (l : SemanticLink) :
    ∃ r ∈ (create_links_step acc l).1, rowKey r = linkKey l := by
  unfold create_links_step
  split
  next r1 hf =>
    have hr1 : r1 ∈ acc.1 := List.mem_of_find?_eq_some hf
    have hm : linkKeyMatches r1 l = true := by simpa using List.find?_some hf
    have hk := linkKeyMatches_eq hm
    by_cases hs : l.strength > r1.strength
    · rw [if_pos hs]
      have hk2 : linkKey l ∈ (updateFirstMatch l acc.1).map rowKey := by
        rw [updateFirstMatch_keys]
        exact hk ▸ List.mem_map_of_mem rowKey hr1
      obtain ⟨r2, hr2, hkey⟩ := List.mem_map.1 hk2
      exact ⟨r2, hr2, hkey⟩
    · rw [if_neg hs]
      exact ⟨r1, hr1, hk⟩
  next hf =>
    exact ⟨⟨l.source_id, l.target_id, l.link_type, l.strength, l.context⟩,
      List.mem_append_right _ (List.mem_singleton_self _), rfl⟩

theorem create_links_foldl_provenance (links : List SemanticLink)
    (acc : List LinkRow × Nat × Nat) (r : LinkRow)
    (hr : r ∈ (links.foldl create_links_step acc).1) :
    (∃ r0 ∈ acc.1, rowKey r = rowKey r0) ∨ ∃ l ∈ links, rowKey r = linkKey l := by
  induction links generalizing acc with
  | nil => exact Or.inl ⟨r, hr, rfl⟩
  | cons l ls ih =>
    rw [List.foldl_cons] at hr
    rcases ih (create_links_step acc l) hr with ⟨r0, hr0, hkey⟩ | ⟨l1, hl1, hkey⟩
    · rcases create_links_step_provenance acc l r0 hr0 with ⟨r1, hr1, hkey1⟩ | hkeyl
      · exact Or.inl ⟨r1, hr1, hkey.trans hkey1⟩
      · exact Or.inr ⟨l, List.mem_cons_self _ _, hkey.trans hkeyl⟩
    · exact Or.inr ⟨l1, List.mem_cons_of_mem _ hl1, hkey⟩

theorem create_links_foldl_key_mono (links : List SemanticLink)
    (acc : List LinkRow × Nat × Nat) (k : String × String × LinkType)
    (h : ∃ r ∈ acc.1, rowKey r = k) :
    ∃ r ∈ (links.foldl create_links_step acc).1, rowKey r = k := by
  induction links generalizing acc with
  | nil => exact h
  | cons l ls ih =>
    rw [List.foldl_cons]
    exact ih _ (create_links_step_key_mono acc l k h)

theorem create_links_foldl_has_key (links : List SemanticLink)
    (acc : List LinkRow × Nat × Nat) (l : SemanticLink) (hl : l ∈ links) :
    ∃ r ∈ (links.foldl create_links_step acc).1, rowKey r = linkKey l := by
  induction links generalizing acc with
  | nil => cases hl
  | cons l0 ls ih =>
    rw [List.foldl_cons]
    rcases List.mem_cons.1 hl with rfl | hmem
    · exact create_links_foldl_key_mono ls _ _ (create_links_step_has_key acc l)
    · exact ih _ hmem

end KMS

namespace KMS

/-- C5 (counterexample to the claim as stated): `create_links` on an empty
table with one automatically discovered link `a → b` persists exactly the one
directed row `(a, b)`; no symmetric row `(b, a)` exists afterwards.  Edges
are stored as a single row, not as two rows, one per direction. -/
theorem create_links_no_symmetric_row :
    (create_links [] [⟨"a", "b", .related, 4/5, "ctx"⟩]).1
      = [⟨"a", "b", .related, 4/5, "ctx"⟩] ∧
    (create_links [] [⟨"a", "b", .related, 4/5, "ctx"⟩]).2 = (1, 0) ∧
    ((create_links [] [⟨"a", "b", .related, 4/5, "ctx"⟩]).1).filter
        (fun r => r.source_id == "b" && r.target_id == "a") = [] := by
  refine ⟨rfl, rfl, rfl⟩

/-- C5 (amended): `LinkingAgent.create_links` stores each semantic link as a
single directed row: afterwards the table contains a row keyed
`(s, t, relationship)` for every given link, and every row's key either was
already present or is the key of one of the given links in its given
direction — no symmetric `(t, s)` row is ever created by it.  (Reverse
traversal is instead provided at read time by `get_links`, which matches
`source_id = ? OR target_id = ?`.) -/
theorem create_links_rows_directed (rows : List LinkRow)
    (links : List SemanticLink) :
    (∀ l ∈ links, ∃ r ∈ (create_links rows links).1, rowKey r = linkKey l) ∧
    (∀ r ∈ (create_links rows links).1,
      (∃ r0 ∈ rows, rowKey r = rowKey r0) ∨ ∃ l ∈ links, rowKey r = linkKey l) := by
  constructor
  · intro l hl
    exact create_links_foldl_has_key links (rows, 0, 0) l hl
  · intro r hr
    exact create_links_foldl_provenance links (rows, 0, 0) r hr

/-- Witness for `create_links_rows_directed` at the one-link example: the
link's row is present and the only row keys are the given direction. -/
theorem create_links_rows_directed_witness :
    ((⟨"a", "b", .related, 4/5, "ctx"⟩ : SemanticLink)
        ∈ [(⟨"a", "b", .related, 4/5, "ctx"⟩ : SemanticLink)]) ∧
    ((∀ l ∈ [(⟨"a", "b", .related, 4/5, "ctx"⟩ : SemanticLink)],
        ∃ r ∈ (create_links [] [⟨"a", "b", .related, 4/5, "ctx"⟩]).1,
          rowKey r = linkKey l) ∧
     (∀ r ∈ (create_links [] [⟨"a", "b", .related, 4/5, "ctx"⟩]).1,
        (∃ r0 ∈ ([] : List LinkRow), rowKey r = rowKey r0) ∨
          ∃ l ∈ [(⟨"a", "b", .related, 4/5, "ctx"⟩ : SemanticLink)],
            rowKey r = linkKey l)) :=
  ⟨List.mem_singleton_self _, create_links_rows_directed _ _⟩

end KMS

namespace KMS

/-! ## Tag normalization (`agents/ingestion_agent.py`, `normalize_tags`,
    lines 148-174).  Strings are lists of Unicode code points (`List Nat`)
    so that the ASCII case arithmetic of `str.lower()` is explicit. -/

/-- A code-point string. -/
abbrev CPStr := List Nat

/-- Code points of a Lean string literal. -/
def cpOf (s : String) : CPStr :=
  s.data.map Char.toNat

/-- Python (ASCII) whitespace: space, tab, LF, CR, VT, FF. -/
def cpIsSpace (c : Nat) : Bool :=
  c == 32 || c == 9 || c == 10 || c == 13 || c == 11 || c == 12

/-- `str.strip()`. -/
def cpStrip (s : CPStr) : CPStr :=
  ((s.dropWhile cpIsSpace).reverse.dropWhile cpIsSpace).reverse

/-- One character of `str.lower()` (ASCII): `A`-`Z` (65-90) shift to
`a`-`z` (97-122). -/
def cpLowerChar (c : Nat) : Nat :=
  if 65 ≤ c ∧ c ≤ 90 then c + 32 else c

/-- `str.lower()`. -/
def cpLower (s : CPStr) : CPStr :=
  s.map cpLowerChar

/-- One character of `str.replace(" ", "-")`: space (32) becomes
hyphen (45). -/
def cpHyphenChar (c : Nat) : Nat :=
  if c = 32 then 45 else c

/-- `str.replace(" ", "-")`. -/
def cpSpaceToHyphen (s : CPStr) : CPStr :=
  s.map cpHyphenChar

/-- `tag.strip().lower().replace(" ", "-")` (line 170). -/
def cpNorm (s : CPStr) : CPStr :=
  cpSpaceToHyphen (cpLower (cpStrip s))

/-- `tags.split(",")`: always at least one (possibly empty) piece. -/
def cpSplitComma : CPStr → CPStr → List CPStr
  | [], acc => [acc]
  | c :: rest, acc =>
    if c = 44 then acc :: cpSplitComma rest []
    else cpSplitComma rest (acc ++ [c])

/-- The front-matter `tags`/`tag` value: a string, a list whose items may or
may not be strings (`none` marks a non-string item, skipped by the
`isinstance(tag, str)` check), or some other truthy non-string non-list
value.  An absent or falsy value is modelled as an absent field. -/
inductive TagsVal where
  | str (s : CPStr)
  | list (items : List (Option CPStr))
  | other
deriving DecidableEq

/-- Python truthiness of such a value. -/
def TagsVal.isTruthy : TagsVal → Bool
  | .str s => s ≠ []
  | .list items => items ≠ []
  | .other => true

/-- The two front-matter keys `normalize_tags` reads. -/
structure Frontmatter where
  tags : Option TagsVal
  tag : Option TagsVal
deriving DecidableEq

/-- Python `a or b`: the first truthy operand. -/
def orElseTruthy (a : Option TagsVal) (b : TagsVal) : TagsVal :=
  match a with
  | some v => if v.isTruthy then v else b
  | none => b

/-- `metadata.get("tags") or metadata.get("tag") or []` (line 158). -/
def tagsValue (m : Frontmatter) : TagsVal :=
  orElseTruthy m.tags (orElseTruthy m.tag (.list []))

/-- Lines 160-164: a string splits on `,` with each piece stripped and empty
pieces dropped; a list is taken as-is; any other value becomes `[]`. -/
def tagsItems : TagsVal → List (Option CPStr)
  | .str s => (((cpSplitComma s []).map cpStrip).filter (fun t => t ≠ [])).map Option.some
  | .list items => items
  | .other => []

/-- The loop of lines 167-172: each string item with non-empty strip is
normalized by `cpNorm` and appended unless already present (first-occurrence
order, no sorting). -/
def normLoop : List (Option CPStr) → List CPStr → List CPStr
  | [], acc => acc
  | none :: rest, acc => normLoop rest acc
  | some t :: rest, acc =>
    if cpStrip t ≠ [] then
      if cpNorm t ∈ acc then normLoop rest acc
      else normLoop rest (acc ++ [cpNorm t])
    else normLoop rest acc

/-- `IngestionAgent.normalize_tags` (lines 148-174). -/
def normalize_tags (m : Frontmatter) : List CPStr :=
  normLoop (tagsItems (tagsValue m)) []

/-- Feeding a produced tag list back in as a front-matter `tags:` list. -/
def relist (ts : List CPStr) : Frontmatter :=
  ⟨some (.list (ts.map Option.some)), none⟩

/-- C7 (counterexample to the claim as stated): the front-matter string
`"b,#A"` normalizes to `["b", "#a"]` — the leading `#` is kept (the agent
never strips it) and the list is in first-occurrence order, not sorted
(`"#a" < "b"`, so the sorted list would be `["#a", "b"]`).  (The variant
that strips `#` and sorts lives in `scripts/ingest.py`, not in this
agent.) -/
theorem normalize_tags_keeps_hash_and_order :
    normalize_tags ⟨some (.str (cpOf "b,#A")), none⟩ = [cpOf "b", cpOf "#a"] ∧
    [cpOf "b", cpOf "#a"] ≠ [cpOf "#a", cpOf "b"] ∧
    (cpOf "#a").take 1 = [35] := by
  decide

end KMS

namespace KMS

theorem cpLowerChar_lower_fixed (c : Nat) :
    cpLowerChar (cpLowerChar c) = cpLowerChar c := by
  unfold cpLowerChar
  split_ifs <;> omega

theorem cpLowerChar_hyphen_lower (c : Nat) :
    cpLowerChar (cpHyphenChar (cpLowerChar c)) = cpHyphenChar (cpLowerChar c) := by
  unfold cpLowerChar cpHyphenChar
  split_ifs <;> omega

theorem cpHyphenChar_hyphen_fixed (c : Nat) :
    cpHyphenChar (cpHyphenChar c) = cpHyphenChar c := by
  unfold cpHyphenChar
  split_ifs <;> omega

theorem cpIsSpace_eq_false_iff (c : Nat) :
    cpIsSpace c = false ↔ c ≠ 32 ∧ c ≠ 9 ∧ c ≠ 10 ∧ c ≠ 13 ∧ c ≠ 11 ∧ c ≠ 12 := by
  unfold cpIsSpace
  simp only [Bool.or_eq_false_iff, beq_eq_false_iff_ne, ne_eq]
  tauto

theorem cpIsSpace_norm_char (c : Nat) (h : cpIsSpace c = false) :
    cpIsSpace (cpHyphenChar (cpLowerChar c)) = false := by
  rw [cpIsSpace_eq_false_iff] at h ⊢
  unfold cpHyphenChar cpLowerChar
  split_ifs <;> omega

theorem dropWhile_eq_self_of_head {p : Nat → Bool} {l : CPStr}
    (h : ∀ c, l.head? = some c → p c = false) : l.dropWhile p = l := by
  cases l with
  | nil => rfl
  | cons a t =>
    have ha : p a = false := h a rfl
    rw [List.dropWhile_cons, if_neg (by simp [ha])]

theorem head?_dropWhile_false {p : Nat → Bool} (l : CPStr) :
    ∀ c, (l.dropWhile p).head? = some c → p c = false := by
  induction l with
  | nil => intro c h; cases h
  | cons a t ih =>
    intro c h
    by_cases hp : p a = true
    · rw [List.dropWhile_cons, if_pos hp] at h
      exact ih c h
    · rw [List.dropWhile_cons, if_neg hp] at h
      have : a = c := by
        simpa using h
      subst this
      exact Bool.not_eq_true _ |>.mp hp

theorem cpStrip_eq_self {s : CPStr}
    (h1 : ∀ c, s.head? = some c → cpIsSpace c = false)
    (h2 : ∀ c, s.getLast? = some c → cpIsSpace c = false) :
    cpStrip s = s := by
  unfold cpStrip
  rw [dropWhile_eq_self_of_head h1]
  rw [dropWhile_eq_self_of_head ?_, List.reverse_reverse]
  intro c hc
  rw [List.head?_reverse] at hc
  exact h2 c hc

theorem getLast?_cpStrip_false (s : CPStr) :
    ∀ c, (cpStrip s).getLast? = some c → cpIsSpace c = false := by
  intro c hc
  unfold cpStrip at hc
  rw [List.getLast?_reverse] at hc
  exact head?_dropWhile_false _ c hc

theorem getLast?_suffix {l₁ l₂ : CPStr} (h : l₁ <:+ l₂) (hne : l₁ ≠ []) :
    l₁.getLast? = l₂.getLast? := by
  obtain ⟨t, rfl⟩ := h
  rw [List.getLast?_append_of_ne_nil _ hne]

theorem head?_cpStrip_false (s : CPStr) :
    ∀ c, (cpStrip s).head? = some c → cpIsSpace c = false := by
  intro c hc
  unfold cpStrip at hc
  rw [List.head?_reverse] at hc
  have hsuf := List.dropWhile_suffix (l := (s.dropWhile cpIsSpace).reverse) cpIsSpace
  have hne : (s.dropWhile cpIsSpace).reverse.dropWhile cpIsSpace ≠ [] := by
    intro h0
    rw [h0] at hc
    cases hc
  rw [getLast?_suffix hsuf hne, List.getLast?_reverse] at hc
  exact head?_dropWhile_false _ c hc

end KMS

namespace KMS

/-- A tag already in normal form: trimmed, lower-case, space-free. -/
def TagFixed (t : CPStr) : Prop :=
  cpStrip t = t ∧ cpLower t = t ∧ cpSpaceToHyphen t = t

theorem cpNorm_eq_map (t : CPStr) :
    cpNorm t = (cpStrip t).map (fun c => cpHyphenChar (cpLowerChar c)) := by
  unfold cpNorm cpSpaceToHyphen cpLower
  rw [List.map_map]
  rfl

theorem cpNorm_fixed (t : CPStr) : TagFixed (cpNorm t) := by
  refine ⟨?_, ?_, ?_⟩
  · apply cpStrip_eq_self
    · intro c hc
      rw [cpNorm_eq_map, List.head?_map] at hc
      cases hh : (cpStrip t).head? with
      | none => rw [hh] at hc; cases hc
      | some c0 =>
        rw [hh] at hc
        have : cpHyphenChar (cpLowerChar c0) = c := by simpa using hc
        subst this
        exact cpIsSpace_norm_char c0 (head?_cpStrip_false t c0 hh)
    · intro c hc
      rw [cpNorm_eq_map, List.getLast?_map] at hc
      cases hh : (cpStrip t).getLast? with
      | none => rw [hh] at hc; cases hc
      | some c0 =>
        rw [hh] at hc
        have : cpHyphenChar (cpLowerChar c0) = c := by simpa using hc
        subst this
        exact cpIsSpace_norm_char c0 (getLast?_cpStrip_false t c0 hh)
  · rw [cpNorm_eq_map]
    unfold cpLower
    rw [List.map_map]
    exact List.map_congr_left fun c _ => cpLowerChar_hyphen_lower c
  · rw [cpNorm_eq_map]
    unfold cpSpaceToHyphen
    rw [List.map_map]
    exact List.map_congr_left fun c _ => by
      simpa [Function.comp] using cpHyphenChar_hyphen_fixed (cpLowerChar c)

theorem cpNorm_ne_nil {t : CPStr} (h : cpStrip t ≠ []) : cpNorm t ≠ [] := by
  rw [cpNorm_eq_map]
  simpa using h

theorem cpNorm_of_fixed {t : CPStr} (h : TagFixed t) : cpNorm t = t := by
  unfold cpNorm
  rw [h.1, h.2.1, h.2.2]

theorem normLoop_mem (items : List (Option CPStr)) (acc : List CPStr) :
    ∀ x ∈ normLoop items acc,
      x ∈ acc ∨ ∃ t, cpStrip t ≠ [] ∧ x = cpNorm t := by
  induction items generalizing acc with
  | nil => exact fun x hx => Or.inl hx
  | cons item rest ih =>
    intro x hx
    cases item with
    | none => exact ih acc x hx
    | some t =>
      unfold normLoop at hx
      by_cases hs : cpStrip t ≠ []
      · rw [if_pos hs] at hx
        by_cases hmem : cpNorm t ∈ acc
        · rw [if_pos hmem] at hx
          exact ih acc x hx
        · rw [if_neg hmem] at hx
          rcases ih _ x hx with hacc | hex
          · rcases List.mem_append.1 hacc with h1 | h1
            · exact Or.inl h1
            · simp only [List.mem_singleton] at h1
              exact Or.inr ⟨t, hs, h1⟩
          · exact Or.inr hex
      · rw [if_neg hs] at hx
        exact ih acc x hx

theorem normLoop_nodup (items : List (Option CPStr)) (acc : List CPStr)
    (h : acc.Nodup) : (normLoop items acc).Nodup := by
  induction items generalizing acc with
  | nil => exact h
  | cons item rest ih =>
    cases item with
    | none => exact ih acc h
    | some t =>
      unfold normLoop
      by_cases hs : cpStrip t ≠ []
      · rw [if_pos hs]
        by_cases hmem : cpNorm t ∈ acc
        · rw [if_pos hmem]
          exact ih acc h
        · rw [if_neg hmem]
          refine ih _ ?_
          rw [← List.concat_eq_append]
          exact List.Nodup.concat hmem h
      · rw [if_neg hs]
        exact ih acc h

theorem normLoop_fixed_id (ts : List CPStr) (acc : List CPStr)
    (hfix : ∀ t ∈ ts, TagFixed t ∧ t ≠ [])
    (hnd : (acc ++ ts).Nodup) :
    normLoop (ts.map Option.some) acc = acc ++ ts := by
  induction ts generalizing acc with
  | nil => simp [normLoop]
  | cons t rest ih =>
    have hft := hfix t (List.mem_cons_self _ _)
    have hs : cpStrip t ≠ [] := by
      rw [hft.1.1]
      exact hft.2
    have hmem : cpNorm t ∉ acc := by
      rw [cpNorm_of_fixed hft.1]
      have := (List.nodup_append.1 hnd).2.2
      intro hin
      exact this hin (List.mem_cons_self _ _)
    rw [List.map_cons]
    unfold normLoop
    rw [if_pos hs, if_neg hmem, cpNorm_of_fixed hft.1]
    have hnd2 : ((acc ++ [t]) ++ rest).Nodup := by
      simpa [List.append_assoc] using hnd
    rw [ih (acc ++ [t]) (fun u hu => hfix u (List.mem_cons_of_mem _ hu)) hnd2]
    simp

end KMS

namespace KMS

/-- C7 (amended): `normalize_tags` is idempotent (feeding its output back in
as the front-matter tags list returns it unchanged), its output has no
duplicates, and every element is non-empty, trimmed, lower-case and has its
spaces hyphenated — but the output is in first-occurrence order (not sorted)
and a leading `#` is kept. -/
theorem normalize_tags_amended (m : Frontmatter) :
    normalize_tags (relist (normalize_tags m)) = normalize_tags m ∧
    (normalize_tags m).Nodup ∧
    ∀ x ∈ normalize_tags m,
      x ≠ [] ∧ cpStrip x = x ∧ cpLower x = x ∧ cpSpaceToHyphen x = x := by
  have hnd : (normalize_tags m).Nodup := normLoop_nodup _ _ List.nodup_nil
  have hmem : ∀ x ∈ normalize_tags m, x ≠ [] ∧ TagFixed x := by
    intro x hx
    rcases normLoop_mem _ _ x hx with hx0 | ⟨t, hts, rfl⟩
    · cases hx0
    · exact ⟨cpNorm_ne_nil hts, cpNorm_fixed t⟩
  refine ⟨?_, hnd, fun x hx =>
    ⟨(hmem x hx).1, (hmem x hx).2.1, (hmem x hx).2.2.1, (hmem x hx).2.2.2⟩⟩
  by_cases h0 : normalize_tags m = []
  · rw [h0]
    rfl
  · have hred : ∀ (x y : TagsVal), orElseTruthy (some x) y = if x.isTruthy then x else y :=
      fun x y => rfl
    have hval : tagsValue (relist (normalize_tags m))
        = .list ((normalize_tags m).map Option.some) := by
      show orElseTruthy (some (.list ((normalize_tags m).map Option.some)))
        (orElseTruthy none (.list [])) = _
      rw [hred, if_pos]
      simp [TagsVal.isTruthy, h0]
    show normLoop (tagsItems (tagsValue (relist (normalize_tags m)))) [] = _
    rw [hval]
    show normLoop ((normalize_tags m).map Option.some) [] = _
    rw [normLoop_fixed_id _ _ (fun t ht => ⟨(hmem t ht).2, (hmem t ht).1⟩)
      (by simpa using hnd)]
    rfl

/-- Witness for `normalize_tags_amended` at the front-matter string
`"ML Ops, ai"`: the output `["ml-ops", "ai"]` is non-empty, so the
per-element statement is not vacuous. -/
theorem normalize_tags_amended_witness :
    normalize_tags ⟨some (.str (cpOf "ML Ops, ai")), none⟩ = [cpOf "ml-ops", cpOf "ai"] ∧
    (normalize_tags (relist (normalize_tags ⟨some (.str (cpOf "ML Ops, ai")), none⟩))
        = normalize_tags ⟨some (.str (cpOf "ML Ops, ai")), none⟩ ∧
     (normalize_tags ⟨some (.str (cpOf "ML Ops, ai")), none⟩).Nodup ∧
     ∀ x ∈ normalize_tags ⟨some (.str (cpOf "ML Ops, ai")), none⟩,
       x ≠ [] ∧ cpStrip x = x ∧ cpLower x = x ∧ cpSpaceToHyphen x = x) :=
  ⟨by decide, normalize_tags_amended _⟩

end KMS

namespace KMS

/-! ## Candidate fetch (`app/index_store.py`, `build_candidate_sql`,
    lines 198-260).  The SQL is modelled relationally: `chunks` and
    `chunk_tags` are lists of rows, timestamps are integers. -/

/-- A row of `chunks` (DDL lines 99-108), the columns the query touches. -/
structure ChunkRow where
  id : String
  path : String
  created_at : Option Int
  modified_at : Int
deriving DecidableEq

/-- The two tables the candidate SQL reads. -/
structure ChunkDb where
  chunks : List ChunkRow
  chunk_tags : List (String × String)
deriving DecidableEq

/-- `FilterSpec` (lines 190-196).  (`pathPfx` is the source's path-prefix
field; `untilTs` the `until` bound.) -/
structure FilterSpec where
  tags : List String
  require_all : Bool
  since : Int
  untilTs : Int
  pathPfx : Option String
deriving DecidableEq

/-- `_time_expr` (lines 198-203): `created_at`, `modified_at`, or
`COALESCE(created_at, modified_at)`. -/
def time_expr (date_field : String) (c : ChunkRow) : Option Int :=
  if date_field = "created" then c.created_at
  else if date_field = "modified" then some c.modified_at
  else some (c.created_at.getD c.modified_at)

/-- `({df} BETWEEN :since AND :until)`; a NULL operand makes it not true. -/
def inWindow (f : FilterSpec) (date_field : String) (c : ChunkRow) : Bool :=
  match time_expr date_field c with
  | none => false
  | some v => decide (f.since ≤ v ∧ v ≤ f.untilTs)

/-- `path LIKE :pfx` with `pfx = prefix + "%"`. -/
def matchesPfx : Option String → String → Bool
  | none, _ => true
  | some pfx, path => pfx.isPrefixOf path

/-- The `filtered` CTE (lines 214-220). -/
def filteredChunks (db : ChunkDb) (f : FilterSpec) (date_field : String) :
    List ChunkRow :=
  db.chunks.filter fun c => inWindow f date_field c && matchesPfx f.pathPfx c.path

/-- `COUNT(DISTINCT ct.tag)` over the chunk's `chunk_tags` rows whose tag is
in the requested `IN (...)` list (lines 234-240). -/
def countDistinctReqTags (db : ChunkDb) (req : List String) (cid : String) : Nat :=
  (((db.chunk_tags.filter fun p => p.1 == cid && req.contains p.2).map Prod.snd).dedup).length

/-- The row set described by the SQL that `build_candidate_sql` (lines
205-260) produces: `filtered`, joined against `tagged` — under AND semantics
a chunk joins iff `COUNT(DISTINCT tag) = len(tags)`, under OR semantics iff
it has at least one matching `chunk_tags` row; with no tags the `filtered`
CTE is returned as-is. -/
def fetch_candidates (db : ChunkDb) (f : FilterSpec) (date_field : String) :
    List ChunkRow :=
  let base := filteredChunks db f date_field
  if f.tags = [] then base
  else if f.require_all then
    base.filter fun c => countDistinctReqTags db f.tags c.id == f.tags.length
  else
    base.filter fun c => db.chunk_tags.any fun p => p.1 == c.id && f.tags.contains p.2

theorem bool_eq_of_iff {a b : Bool} (h : a = true ↔ b = true) : a = b := by
  cases a <;> cases b <;> simp_all

theorem mem_countDistinct_owned {db : ChunkDb} {req : List String} {cid t : String} :
    (t ∈ ((db.chunk_tags.filter fun p => p.1 == cid && req.contains p.2).map Prod.snd).dedup)
      ↔ (t ∈ req ∧ (cid, t) ∈ db.chunk_tags) := by
  rw [List.mem_dedup, List.mem_map]
  constructor
  · rintro ⟨p, hp, rfl⟩
    have hp2 := List.mem_filter.1 hp
    simp only [Bool.and_eq_true, beq_iff_eq, List.elem_iff] at hp2
    refine ⟨hp2.2.2, ?_⟩
    have : p = (cid, p.2) := by
      rw [← hp2.2.1]
    rw [← this]
    exact hp2.1
  · rintro ⟨hreq, hmem⟩
    refine ⟨(cid, t), List.mem_filter.2 ⟨hmem, ?_⟩, rfl⟩
    simp [hreq]

theorem countDistinctReqTags_eq_iff (db : ChunkDb) (req : List String)
    (cid : String) (hnd : req.Nodup) :
    countDistinctReqTags db req cid = req.length ↔
      ∀ t ∈ req, (cid, t) ∈ db.chunk_tags := by
  have hperm :
      ((db.chunk_tags.filter fun p => p.1 == cid && req.contains p.2).map Prod.snd).dedup.Perm
        (req.filter fun t => decide ((cid, t) ∈ db.chunk_tags)) := by
    rw [List.perm_ext_iff_of_nodup (List.nodup_dedup _) (hnd.filter _)]
    intro t
    rw [mem_countDistinct_owned, List.mem_filter, decide_eq_true_iff]
  unfold countDistinctReqTags
  rw [hperm.length_eq]
  constructor
  · intro hlen
    have heq := (List.filter_sublist req).eq_of_length hlen
    intro t ht
    have := List.filter_eq_self.1 heq t ht
    exact decide_eq_true_iff.1 this
  · intro hall
    rw [List.filter_eq_self.2 fun t ht => decide_eq_true_iff.2 (hall t ht)]

end KMS

namespace KMS

/-- C8: with a non-empty, duplicate-free tag list, the candidate SQL under
`require_all=true` returns exactly the filtered chunks carrying **all**
requested tags (the `COUNT(DISTINCT tag) = |requested|` implementation), and
under `require_all=false` exactly those carrying **at least one** requested
tag. -/
theorem fetch_candidates_tag_semantics (db : ChunkDb) (f : FilterSpec)
    (date_field : String) (hnd : f.tags.Nodup) (hne : f.tags ≠ []) :
    fetch_candidates db { f with require_all := true } date_field
      = (filteredChunks db f date_field).filter
          (fun c => f.tags.all fun t => decide ((c.id, t) ∈ db.chunk_tags)) ∧
    fetch_candidates db { f with require_all := false } date_field
      = (filteredChunks db f date_field).filter
          (fun c => f.tags.any fun t => decide ((c.id, t) ∈ db.chunk_tags)) := by
  constructor
  · unfold fetch_candidates
    rw [if_neg hne, if_pos rfl]
    show (filteredChunks db f date_field).filter
        (fun c => countDistinctReqTags db f.tags c.id == f.tags.length) = _
    apply List.filter_congr
    intro c _
    apply bool_eq_of_iff
    rw [beq_iff_eq, countDistinctReqTags_eq_iff db f.tags c.id hnd, List.all_eq_true]
    constructor
    · intro h t ht
      exact decide_eq_true_iff.2 (h t ht)
    · intro h t ht
      exact decide_eq_true_iff.1 (h t ht)
  · unfold fetch_candidates
    rw [if_neg hne, if_neg (by simp)]
    show (filteredChunks db f date_field).filter
        (fun c => db.chunk_tags.any fun p => p.1 == c.id && f.tags.contains p.2) = _
    apply List.filter_congr
    intro c _
    apply bool_eq_of_iff
    rw [List.any_eq_true, List.any_eq_true]
    constructor
    · rintro ⟨p, hp, hcond⟩
      simp only [Bool.and_eq_true, beq_iff_eq, List.elem_iff] at hcond
      refine ⟨p.2, hcond.2, decide_eq_true_iff.2 ?_⟩
      have hpe : p = (c.id, p.2) := by
        rw [← hcond.1]
      rw [← hpe]
      exact hp
    · rintro ⟨t, ht, hdec⟩
      refine ⟨(c.id, t), decide_eq_true_iff.1 hdec, ?_⟩
      simp [ht]

end KMS

namespace KMS

/-- The tag AND/OR example from the specification: three chunks tagged
`[ai]`, `[ai, ml]`, `[ml]`. -/
def c8db : ChunkDb :=
  ⟨[⟨"c1", "notes/x.md", none, 5⟩, ⟨"c2", "notes/x.md", none, 5⟩,
    ⟨"c3", "notes/x.md", none, 5⟩],
   [("c1", "ai"), ("c2", "ai"), ("c2", "ml"), ("c3", "ml")]⟩

def c8f : FilterSpec :=
  ⟨["ai", "ml"], true, 0, 10, none⟩

/-- Witness for `fetch_candidates_tag_semantics` on the specification's
example: `tags=ai,ml` returns exactly the middle chunk under AND and all
three under OR. -/
theorem fetch_candidates_tag_semantics_witness :
    (c8f.tags.Nodup ∧ c8f.tags ≠ []) ∧
    fetch_candidates c8db { c8f with require_all := true } "auto"
      = [⟨"c2", "notes/x.md", none, 5⟩] ∧
    fetch_candidates c8db { c8f with require_all := false } "auto"
      = [⟨"c1", "notes/x.md", none, 5⟩, ⟨"c2", "notes/x.md", none, 5⟩,
         ⟨"c3", "notes/x.md", none, 5⟩] ∧
    (fetch_candidates c8db { c8f with require_all := true } "auto"
      = (filteredChunks c8db c8f "auto").filter
          (fun c => c8f.tags.all fun t => decide ((c.id, t) ∈ c8db.chunk_tags)) ∧
     fetch_candidates c8db { c8f with require_all := false } "auto"
      = (filteredChunks c8db c8f "auto").filter
          (fun c => c8f.tags.any fun t => decide ((c.id, t) ∈ c8db.chunk_tags))) :=
  ⟨⟨by decide, by decide⟩, by decide, by decide,
   fetch_candidates_tag_semantics c8db c8f "auto" (by decide) (by decide)⟩

end KMS
